import Mathlib

/-!
# Verification of the `nutils.sample` module

A shallow embedding of `src/nutils/sample.py`: the `Sample` data model with
its default- and custom-index variants, subset selection, triangulation
extraction, the `basis`/`asfunction` reconstruction, the deferred
`_Integral`/`_AtSample` nodes, the joint sparse-evaluation pipeline and the
rank-dependent sparse conversion `_convert`.

Numeric values are modelled exactly (as `Int`), so "up to floating-point
tolerance" statements become exact equalities.  External collaborator modules
(`pointsseq`, `sparse`, `matrix`, `evaluable`) are not part of the sources;
the few facts needed from them are modelled from the specification and marked
as such in their doc comments.
-/

/-- The local point set of one element, as exposed by the external
points-sequence collaborator: a point count, optional integration weights and
optional local triangulation/hull connectivity tables. -/
structure ElemPoints where
  npoints : Nat
  weights : List Int
  tri : List (List Nat)
  hull : List (List Nat)
  deriving Repr, DecidableEq

instance : Inhabited ElemPoints := ⟨⟨0, [], [], []⟩⟩

/-- Modelled from the spec: the points-sequence collaborator's total point
count, "derived from points" as the sum of the per-element point counts
(`PointsSequence.npoints` is not under `src/`). -/
def pointsSeqNpoints (ps : List ElemPoints) : Nat :=
  (ps.map ElemPoints.npoints).sum

/-- The index strategy of a `Sample`: either the default contiguous
per-element offsets (`_DefaultIndex`) or a caller-supplied table of global
index arrays (`_CustomIndex`). -/
inductive IndexKind where
  | default
  | custom (index : List (List Nat))
  deriving Repr, DecidableEq

/-- The `Sample` data model of `sample.py`: a tuple of transform-chain
sequences (each chain modelled as an opaque `Nat` token), a points sequence,
and the index strategy chosen by the `Sample.new` factory. -/
structure Sample where
  transforms : List (List Nat)
  points : List ElemPoints
  idx : IndexKind
  deriving Repr, DecidableEq

/-- Source `Sample.__init__`: `self.nelems = len(transforms[0])`. -/
def Sample.nelems (s : Sample) : Nat :=
  (s.transforms.getD 0 []).length

/-- Source `Sample.npoints`: `return self.points.npoints`. -/
def Sample.npoints (s : Sample) : Nat :=
  pointsSeqNpoints s.points

/-- The local point count of element `e` (`self.points[ielem].npoints`). -/
def Sample.nlocal (s : Sample) (e : Nat) : Nat :=
  (s.points.getD e default).npoints

/-- Source `_DefaultIndex.offsets`: `numpy.cumsum([0]+[p.npoints for p in points])`
evaluated at position `e`. -/
def Sample.offsetAt (s : Sample) (e : Nat) : Nat :=
  ((s.points.take e).map ElemPoints.npoints).sum

/-- Source `getindex(ielem)`: for the default variant
`numpy.arange(offsets[ielem], offsets[ielem+1])`, for the custom variant
`self._index[ielem]`. -/
def Sample.getindex (s : Sample) (e : Nat) : List Nat :=
  match s.idx with
  | .default => List.range' (s.offsetAt e) (s.nlocal e)
  | .custom index => index.getD e []

/-- The global index of local point `j` of element `e`. -/
def Sample.idxOf (s : Sample) (e j : Nat) : Nat :=
  (s.getindex e).getD j 0

/-- The integration weight of local point `j` of element `e`. -/
def Sample.weight (s : Sample) (e j : Nat) : Int :=
  (s.points.getD e default).weights.getD j 0

/-- The invariants established by `Sample.__init__`:
`assert len(transforms) >= 1` and
`assert all(len(t) == len(points) for t in transforms)`. -/
def Sample.WF (s : Sample) : Prop :=
  s.transforms ≠ [] ∧ ∀ t ∈ s.transforms, t.length = s.points.length

instance (s : Sample) : Decidable s.WF := by
  unfold Sample.WF; infer_instance

/-- Source `Sample.index`: the tuple of all per-element global index arrays. -/
def Sample.indexTuple (s : Sample) : List (List Nat) :=
  (List.range s.nelems).map s.getindex

/-- The concatenation, in element order, of all per-element global index
arrays: the global point multiset of the sample in evaluation order. -/
def Sample.allIndices (s : Sample) : List Nat :=
  (List.range s.nelems).flatMap s.getindex

/-- Source `Sample.__init__`: the two assertions, modelled as immediate construction
failures carrying the failing assertion's source text as message. -/
def sampleInit (transforms : List (List Nat)) (points : List ElemPoints)
    (idx : IndexKind) : Except String Sample :=
  if transforms.length < 1 then
    .error "assert len(transforms) >= 1"
  else if ¬ transforms.all (fun t => t.length == points.length) then
    .error "assert all(len(t) == len(points) for t in transforms)"
  else
    .ok ⟨transforms, points, idx⟩

/-- Source `Sample.new`: the factory dispatching on the presence of `index`; the
custom variant's `_CustomIndex.__init__` validates the index lengths (raising
`ValueError`) before delegating to `Sample.__init__`. -/
def Sample.new (transforms : List (List Nat)) (points : List ElemPoints)
    (index : Option (List (List Nat))) : Except String Sample :=
  match index with
  | none => sampleInit transforms points .default
  | some ix =>
    if ix.length ≠ points.length then
      .error "expected an index with len(points) items"
    else if ¬ (List.zip ix points).all (fun q => q.1.length == q.2.npoints) then
      .error "lengths of indices does not match number of points per element"
    else
      sampleInit transforms points (.custom ix)

/-- Source `Sample.subset`: the retained element selection,
`[ielem for ielem in range(self.nelems) if mask[self.getindex(ielem)].any()]`. -/
def Sample.selection (s : Sample) (mask : List Bool) : List Nat :=
  (List.range s.nelems).filter (fun e => (s.getindex e).any (fun p => mask.getD p false))

/-- Source `Sample.subset`: restrict the transforms and points to the selected
elements and rebuild through `Sample.new` without an index (hence with the
default index strategy). -/
def Sample.subset (s : Sample) (mask : List Bool) : Sample :=
  { transforms := s.transforms.map (fun t => (s.selection mask).map (fun e => t.getD e 0))
    points := (s.selection mask).map (fun e => s.points.getD e default)
    idx := .default }

/-- The per-element contribution of `_Integral.lower`'s loop body:
`evaluable.dot(weights, integrand, 0)` at element `e`, for a (scalar-valued)
integrand given per element and local point. -/
def elemContribution (s : Sample) (X : Nat → Nat → Int) (e : Nat) : Int :=
  ((List.range (s.nlocal e)).map (fun j => s.weight e j * X e j)).sum

/-- The value computed by `_Integral.lower`:
`LoopSum(dot(weights, integrand), ielem, nelems)`. -/
def Sample.integrate (s : Sample) (X : Nat → Nat → Int) : Int :=
  ((List.range s.nelems).map (elemContribution s X)).sum

/-- The dense point data computed by `_AtSample.lower` at global point `p`:
`LoopSum(Inflate(func, indices, npoints), ielem, nelems)`, i.e. the sum of
the contributions that every element scatters onto `p` through its global
index array. -/
def Sample.evalData (s : Sample) (X : Nat → Nat → Int) (p : Nat) : Int :=
  ((List.range s.nelems).map (fun e =>
    ((List.range (s.nlocal e)).map (fun j =>
      if s.idxOf e j = p then X e j else 0)).sum)).sum

/-- Source `Sample.basis()` evaluated at local point `j` of element `e`, component
`q`: the composition `inflate(Sampled(...), indices=I, length=npoints)`
produces the unit vector selecting that point's global index. -/
def Sample.basisVal (s : Sample) (e j q : Nat) : Int :=
  if s.idxOf e j = q then 1 else 0

/-- Source `Sample.asfunction(array)`: `function.matmat(self.basis(), array)`, the
contraction of the basis against the point data, evaluated at local point
`j` of element `e`. -/
def Sample.asfun (s : Sample) (data : Nat → Int) (e j : Nat) : Int :=
  ((List.range s.npoints).map (fun q => s.basisVal e j q * data q)).sum

/-- Modelled from the spec: a raw sparse result of the external `sparse`
collaborator, "a coordinate/value list representation of a tensor where
unlisted entries are implicitly zero and repeated coordinates must be summed
on densification" (`nutils/sparse.py` is not under `src/`). -/
structure SparseData where
  shape : List Nat
  entries : List (List Nat × Int)
  deriving Repr, DecidableEq

instance : Inhabited SparseData := ⟨⟨[], []⟩⟩

/-- Modelled from the spec: the dense value of a sparse coordinate/value list
at index tuple `t` — the sum of the values of all entries listed at `t`. -/
def densify (es : List (List Nat × Int)) (t : List Nat) : Int :=
  ((es.filter (fun x => x.1 == t)).map Prod.snd).sum

/-- Modelled from the spec: `sparse.dedup` — "deduplicate (sum colliding
index tuples)", keeping the first occurrence order. -/
def dedup : List (List Nat × Int) → List (List Nat × Int)
  | [] => []
  | (c, v) :: rest =>
    (c, v + ((rest.filter (fun x => x.1 == c)).map Prod.snd).sum) ::
      dedup (rest.filter (fun x => x.1 != c))
termination_by l => l.length
decreasing_by
  simpa using Nat.lt_succ_of_le (List.length_filter_le _ rest)

/-- Modelled from the spec: `sparse.prune` — "drop explicit
zero/structurally-empty entries". -/
def prune (es : List (List Nat × Int)) : List (List Nat × Int) :=
  es.filter (fun x => x.2 != 0)

/-- Modelled from the spec: `sparse.toarray` of a rank-1 result — the dense
vector whose entry `i` accumulates all sparse entries at coordinate `i`. -/
def toVector (n : Nat) (es : List (List Nat × Int)) : List Int :=
  (List.range n).map (fun i => densify es [i])

/-- Modelled from the spec: `matrix.fromsparse` — the structured matrix whose
dense entry `(i, j)` accumulates all sparse entries at `(i, j)`. -/
def toMatrix (r c : Nat) (es : List (List Nat × Int)) : List (List Int) :=
  (List.range r).map (fun i => (List.range c).map (fun j => densify es [i, j]))

/-- The possible results of `_convert`: "a zero-dimensional object becomes a
scalar, a one-dimensional object a (dense) Numpy vector, a two-dimensional
object a Nutils matrix, and any higher dimensional object a deduplicated and
pruned sparse object". -/
inductive ConvResult where
  | scalar (v : Int)
  | vector (v : List Int)
  | matrix (m : List (List Int))
  | sparseT (d : SparseData)
  deriving Repr, DecidableEq

instance : Inhabited ConvResult := ⟨.scalar 0⟩

/-- Source `_convert(data)`: branch on the tensor rank `ndim = sparse.ndim(data)` —
`sparse.toarray` for `ndim < 2`, `matrix.fromsparse` for `ndim == 2`,
`sparse.prune(sparse.dedup(data))` otherwise. -/
def convert (d : SparseData) : ConvResult :=
  if d.shape.length < 2 then
    match d.shape with
    | [] => .scalar (densify d.entries [])
    | n :: _ => .vector (toVector n d.entries)
  else if d.shape.length = 2 then
    .matrix (toMatrix (d.shape.getD 0 0) (d.shape.getD 1 0) d.entries)
  else
    .sparseT ⟨d.shape, prune (dedup d.entries)⟩

/-- The named-argument mapping passed to evaluation (free symbolic
parameters bound at execution time). -/
def Args : Type := String → Int

/-- The deferred expression nodes of `sample.py`: `_Integral(integrand,
sample)` and `_AtSample(func, sample)`.  The wrapped expression is modelled
by its value at every argument mapping, element and local point. -/
inductive Deferred where
  | integral (integrand : Args → Nat → Nat → Int) (s : Sample)
  | atSample (func : Args → Nat → Nat → Int) (s : Sample)

instance : Inhabited Deferred := ⟨.integral (fun _ _ _ => 0) ⟨[[]], [], .default⟩⟩

/-- Source `integral.as_evaluable_array().assparse` bound to an argument mapping:
the raw sparse accumulation produced by the per-element loop.  An `_Integral`
contributes one rank-0 entry per element (summed on conversion); an
`_AtSample` scatters every element's local values onto that element's global
indices (overlapping custom indices accumulate on conversion). -/
def Deferred.assparse : Deferred → Args → SparseData
  | .integral X s, args =>
    ⟨[], (List.range s.nelems).map (fun e => ([], elemContribution s (X args) e))⟩
  | .atSample X s, args =>
    ⟨[s.npoints], (List.range s.nelems).flatMap (fun e =>
      (List.range (s.nlocal e)).map (fun j => ([s.idxOf e j], X args e j)))⟩

/-- Modelled from the spec: `evaluable.Tuple` — the joint graph node that
bundles all lowered expressions and, on execution, produces every member's
result from a single pass (`nutils/evaluable.py` is not under `src/`). -/
def evTuple (fs : List (Args → SparseData)) (args : Args) : List SparseData :=
  fs.map (fun f => f args)

/-- Source `eval_integrals_sparse(*integrals, **arguments)`: lower every integral to
its sparse evaluable form, bundle them into one tuple node and execute it
once with the arguments bound. -/
def eval_integrals_sparse (integrals : List Deferred) (args : Args) : List SparseData :=
  evTuple (integrals.map Deferred.assparse) args

/-- Source `eval_integrals(*integrals, **arguments)`: the sparse pipeline followed
by the order-preserving conversion of each raw result through `_convert`. -/
def eval_integrals (integrals : List Deferred) (args : Args) : List ConvResult :=
  (eval_integrals_sparse integrals args).map convert

/-- The message raised by `_Integral.lower` and `_AtSample.lower` when
`transform_chains` or `coordinates` are already bound. -/
def nestedErr : String := "nested integrals or samples are not yet supported"

/-- Source `_Integral.lower(transform_chains, coordinates)`: reject already-bound
chains or coordinates, otherwise rebuild fresh per-element bindings from the
sample and lower the wrapped integrand under them (the integrand's own
`lower` is passed in as a function, so that the theorem can quantify over
it).  A binding is modelled as a list, `[]` standing for the absent/falsy
default. -/
def integralLower
    (integrandLower : List (List Nat) → List (List Nat) → Except String (Nat → Nat → Int))
    (s : Sample) (transform_chains coordinates : List (List Nat)) :
    Except String Int :=
  if transform_chains ≠ [] ∨ coordinates ≠ [] then
    .error nestedErr
  else do
    let integrand ← integrandLower s.transforms (List.replicate s.transforms.length [])
    .ok (s.integrate integrand)

/-- Source `_AtSample.lower(transform_chains, coordinates)`: same guard as
`integralLower`, then lower the wrapped function and inflate its per-element
values into the global point axis. -/
def atSampleLower
    (funcLower : List (List Nat) → List (List Nat) → Except String (Nat → Nat → Int))
    (s : Sample) (transform_chains coordinates : List (List Nat)) :
    Except String (List Int) :=
  if transform_chains ≠ [] ∨ coordinates ≠ [] then
    .error nestedErr
  else do
    let func ← funcLower s.transforms (List.replicate s.transforms.length [])
    .ok ((List.range s.npoints).map (s.evalData func))

/-- The dtypes of the expression algebra (`nutils.function`). -/
inductive Dtype where
  | bool
  | int
  | float
  | complex
  deriving Repr, DecidableEq

/-- The shape/dtype signature of a `function.Array` node. -/
structure FArray where
  shape : List Nat
  dtype : Dtype
  deriving Repr, DecidableEq

/-- Source `_Integral.__init__`: `super().__init__(shape=integrand.shape,
dtype=float if integrand.dtype in (bool, int) else integrand.dtype)`. -/
def integralNode (integrand : FArray) : FArray :=
  { shape := integrand.shape
    dtype := if integrand.dtype = .bool ∨ integrand.dtype = .int then .float
             else integrand.dtype }

/-- Source `_AtSample.__init__`: `super().__init__(shape=(sample.points.npoints,
*func.shape), dtype=func.dtype)`. -/
def atSampleNode (func : FArray) (s : Sample) : FArray :=
  { shape := s.npoints :: func.shape
    dtype := func.dtype }

/-- Source `Sample.tri`: `numpy.concatenate([self.getindex(ielem).take(points.tri)
for ielem, points in enumerate(self.points)])` — every element's local
simplex table remapped through that element's global index array. -/
def Sample.tri (s : Sample) : List (List Nat) :=
  (List.range s.points.length).flatMap (fun e =>
    ((s.points.getD e default).tri).map (fun row =>
      row.map (fun v => (s.getindex e).getD v 0)))

/-- Source `Sample.hull`: the same remapping applied to the per-element hull
tables. -/
def Sample.hull (s : Sample) : List (List Nat) :=
  (List.range s.points.length).flatMap (fun e =>
    ((s.points.getD e default).hull).map (fun row =>
      row.map (fun v => (s.getindex e).getD v 0)))

/-- Modelled from the spec: the points-sequence collaborator's global
triangulation (`PointsSequence.tri` is not under `src/`) — the per-element
local simplex tables concatenated in element order, each shifted by that
element's cumulative point offset. -/
def pointsSeqTri (ps : List ElemPoints) : List (List Nat) :=
  (List.range ps.length).flatMap (fun e =>
    ((ps.getD e default).tri).map (fun row =>
      row.map (fun v => ((ps.take e).map ElemPoints.npoints).sum + v)))

/-- Modelled from the spec: the points-sequence collaborator's global hull,
built like `pointsSeqTri` from the per-element hull tables. -/
def pointsSeqHull (ps : List ElemPoints) : List (List Nat) :=
  (List.range ps.length).flatMap (fun e =>
    ((ps.getD e default).hull).map (fun row =>
      row.map (fun v => ((ps.take e).map ElemPoints.npoints).sum + v)))

/-- Source `_DefaultIndex.tri`: the optimised override `return self.points.tri`. -/
def Sample.defaultTri (s : Sample) : List (List Nat) :=
  pointsSeqTri s.points

/-- Source `_DefaultIndex.hull`: the optimised override `return self.points.hull`. -/
def Sample.defaultHull (s : Sample) : List (List Nat) :=
  pointsSeqHull s.points

/-- The flattened list of (element, local point) slots iterated by the
per-element loops. -/
def Sample.pairsOf (s : Sample) : List (Nat × Nat) :=
  (List.range s.nelems).flatMap (fun e =>
    (List.range (s.nlocal e)).map (fun j => (e, j)))

theorem sum_map_flatMap {α β : Type} (l : List α) (f : α → List β) (g : β → Int) :
    ((l.flatMap f).map g).sum = (l.map (fun a => ((f a).map g).sum)).sum := by
  induction l with
  | nil => simp
  | cons a t ih => simp [List.flatMap_cons, ih]

theorem flatMap_congr {α β : Type} {l : List α} {f g : α → List β}
    (h : ∀ a ∈ l, f a = g a) : l.flatMap f = l.flatMap g := by
  induction l with
  | nil => rfl
  | cons a t ih =>
    simp only [List.flatMap_cons, h a (List.mem_cons_self a t),
      ih (fun b hb => h b (List.mem_cons_of_mem a hb))]

theorem sum_ite_zero {α : Type} (P : List α) (key : α → Nat) (v : α → Int) (p : Nat)
    (h : ∀ q ∈ P, key q ≠ p) :
    (P.map (fun q => if key q = p then v q else 0)).sum = 0 := by
  induction P with
  | nil => simp
  | cons a t ih =>
    simp only [List.map_cons, List.sum_cons,
      if_neg (h a (List.mem_cons_self a t)),
      ih (fun q hq => h q (List.mem_cons_of_mem a hq)), zero_add]

theorem sum_ite_key {α : Type} (P : List α) (key : α → Nat) (v : α → Int) (a : α)
    (hnd : (P.map key).Nodup) (ha : a ∈ P) :
    (P.map (fun q => if key q = key a then v q else 0)).sum = v a := by
  induction P with
  | nil => cases ha
  | cons b t ih =>
    simp only [List.map_cons, List.nodup_cons] at hnd
    rcases List.mem_cons.mp ha with rfl | hat
    · have hz : ∀ q ∈ t, key q ≠ key a := by
        intro q hq hkey
        exact hnd.1 (hkey ▸ List.mem_map_of_mem key hq)
      simp [sum_ite_zero t key v (key a) hz]
    · have hb : key b ≠ key a := by
        intro hkey
        exact hnd.1 (hkey ▸ List.mem_map_of_mem key hat)
      simp only [List.map_cons, List.sum_cons, if_neg hb, ih hnd.2 hat, zero_add]

theorem offsetAt_zero (s : Sample) : s.offsetAt 0 = 0 := rfl

theorem default_npoints_zero : (default : ElemPoints).npoints = 0 := rfl

theorem sum_take_succ (l : List Nat) (e : Nat) (h : e < l.length) :
    (l.take (e + 1)).sum = (l.take e).sum + l[e] := by
  rw [List.take_succ, List.getElem?_eq_getElem h, List.sum_append]
  simp

theorem offsetAt_succ (s : Sample) (e : Nat) :
    s.offsetAt (e + 1) = s.offsetAt e + s.nlocal e := by
  unfold Sample.offsetAt Sample.nlocal
  rw [List.map_take, List.map_take]
  rcases Nat.lt_or_ge e s.points.length with h | h
  · have hm : e < (s.points.map ElemPoints.npoints).length := by simpa using h
    rw [sum_take_succ _ _ hm, List.getElem_map, List.getD_eq_getElem _ _ h]
  · rw [List.take_of_length_le (by simpa using Nat.le_succ_of_le h),
      List.take_of_length_le (by simpa using h),
      List.getD_eq_default _ _ h, default_npoints_zero, Nat.add_zero]

theorem offsetAt_add_drop (s : Sample) (e : Nat) :
    s.offsetAt e + ((s.points.drop e).map ElemPoints.npoints).sum = s.npoints := by
  unfold Sample.offsetAt Sample.npoints pointsSeqNpoints
  rw [← List.sum_append, ← List.map_append, List.take_append_drop]

theorem offsetAt_le_npoints (s : Sample) (e : Nat) : s.offsetAt e ≤ s.npoints := by
  have := offsetAt_add_drop s e
  omega

theorem nlocal_le_drop (s : Sample) (e : Nat) :
    s.nlocal e ≤ ((s.points.drop e).map ElemPoints.npoints).sum := by
  unfold Sample.nlocal
  rcases Nat.lt_or_ge e s.points.length with h | h
  · rw [List.getD_eq_getElem _ _ h, List.drop_eq_getElem_cons h, List.map_cons,
      List.sum_cons]
    exact Nat.le_add_right _ _
  · rw [List.getD_eq_default _ _ h]
    exact Nat.zero_le _

theorem default_getindex (s : Sample) (h : s.idx = .default) (e : Nat) :
    s.getindex e = List.range' (s.offsetAt e) (s.nlocal e) := by
  unfold Sample.getindex
  rw [h]

theorem default_idxOf (s : Sample) (h : s.idx = .default) {e j : Nat}
    (hj : j < s.nlocal e) : s.idxOf e j = s.offsetAt e + j := by
  unfold Sample.idxOf
  rw [default_getindex s h,
    List.getD_eq_getElem _ _ (by simpa [List.length_range'] using hj),
    List.getElem_range']
  simp

theorem default_idx_lt (s : Sample) (h : s.idx = .default) {e j : Nat}
    (hj : j < s.nlocal e) : s.idxOf e j < s.npoints := by
  rw [default_idxOf s h hj]
  have h1 : s.offsetAt e + j < s.offsetAt (e + 1) := by
    rw [offsetAt_succ]; omega
  have h2 : s.offsetAt (e + 1) ≤ s.npoints := offsetAt_le_npoints s (e + 1)
  omega

theorem flatMap_getindex_default (s : Sample) (h : s.idx = .default) (k : Nat) :
    (List.range k).flatMap s.getindex = List.range' 0 (s.offsetAt k) := by
  induction k with
  | zero => simp [offsetAt_zero]
  | succ k ih =>
    rw [List.range_succ, List.flatMap_append, ih]
    simp only [List.flatMap_cons, List.flatMap_nil, List.append_nil]
    rw [default_getindex s h, offsetAt_succ]
    have := List.range'_append 0 (s.offsetAt k) (s.nlocal k) 1
    simpa [Nat.add_comm] using this

theorem integrate_eq_pairs (s : Sample) (X : Nat → Nat → Int) :
    s.integrate X = (s.pairsOf.map (fun q => s.weight q.1 q.2 * X q.1 q.2)).sum := by
  unfold Sample.integrate Sample.pairsOf elemContribution
  rw [sum_map_flatMap]
  congr 1
  apply List.map_congr_left
  intro e _
  rw [List.map_map]
  rfl

theorem evalData_eq_pairs (s : Sample) (X : Nat → Nat → Int) (p : Nat) :
    s.evalData X p =
      (s.pairsOf.map (fun q => if s.idxOf q.1 q.2 = p then X q.1 q.2 else 0)).sum := by
  unfold Sample.evalData Sample.pairsOf
  rw [sum_map_flatMap]
  congr 1
  apply List.map_congr_left
  intro e _
  rw [List.map_map]
  rfl

theorem pairs_map_idx_default (s : Sample) (h : s.idx = .default) :
    s.pairsOf.map (fun q => s.idxOf q.1 q.2) = (List.range s.nelems).flatMap s.getindex := by
  unfold Sample.pairsOf
  rw [List.map_flatMap]
  apply flatMap_congr
  intro e _
  rw [List.map_map, default_getindex s h, List.range'_eq_map_range]
  apply List.map_congr_left
  intro j hj
  exact default_idxOf s h (List.mem_range.mp hj)

theorem pairs_keys_nodup (s : Sample) (h : s.idx = .default) :
    (s.pairsOf.map (fun q => s.idxOf q.1 q.2)).Nodup := by
  rw [pairs_map_idx_default s h, flatMap_getindex_default s h]
  exact List.nodup_range' 0 (s.offsetAt s.nelems)

theorem mem_pairs (s : Sample) {e j : Nat} (he : e < s.nelems) (hj : j < s.nlocal e) :
    (e, j) ∈ s.pairsOf := by
  unfold Sample.pairsOf
  rw [List.mem_flatMap]
  exact ⟨e, List.mem_range.mpr he, List.mem_map_of_mem _ (List.mem_range.mpr hj)⟩

theorem of_mem_pairs (s : Sample) {q : Nat × Nat} (hq : q ∈ s.pairsOf) :
    q.1 < s.nelems ∧ q.2 < s.nlocal q.1 := by
  unfold Sample.pairsOf at hq
  rw [List.mem_flatMap] at hq
  obtain ⟨e, he, hm⟩ := hq
  obtain ⟨j, hj, rfl⟩ := List.mem_map.mp hm
  exact ⟨List.mem_range.mp he, List.mem_range.mp hj⟩

theorem asfun_at (s : Sample) (data : Nat → Int) {e j : Nat}
    (h : s.idxOf e j < s.npoints) :
    s.asfun data e j = data (s.idxOf e j) := by
  unfold Sample.asfun Sample.basisVal
  have hkey := sum_ite_key (List.range s.npoints) id data (s.idxOf e j)
      (by simpa using List.nodup_range s.npoints) (List.mem_range.mpr h)
  simp only [id_eq] at hkey
  rw [← hkey]
  congr 1
  apply List.map_congr_left
  intro q _
  by_cases hq : s.idxOf e j = q
  · simp [hq]
  · rw [if_neg (fun hh : q = s.idxOf e j => hq hh.symm)]
    simp [hq]

theorem evalData_at_default (s : Sample) (X : Nat → Nat → Int) (h : s.idx = .default)
    {e j : Nat} (he : e < s.nelems) (hj : j < s.nlocal e) :
    s.evalData X (s.idxOf e j) = X e j := by
  rw [evalData_eq_pairs]
  have := sum_ite_key s.pairsOf (fun q => s.idxOf q.1 q.2) (fun q => X q.1 q.2) (e, j)
      (pairs_keys_nodup s h) (mem_pairs s he hj)
  simpa using this

theorem wf_nelems (s : Sample) (hwf : s.WF) : s.nelems = s.points.length := by
  obtain ⟨hne, hall⟩ := hwf
  unfold Sample.nelems
  cases hs : s.transforms with
  | nil => exact absurd hs hne
  | cons t ts =>
    simp only [List.getD_cons_zero]
    exact hall t (hs ▸ List.mem_cons_self t ts)

theorem offsetAt_length (s : Sample) : s.offsetAt s.points.length = s.npoints := by
  unfold Sample.offsetAt Sample.npoints pointsSeqNpoints
  rw [List.take_length]

theorem densify_cons (c : List Nat) (v : Int) (rest : List (List Nat × Int))
    (t : List Nat) :
    densify ((c, v) :: rest) t = (if c = t then v else 0) + densify rest t := by
  unfold densify
  rw [List.filter_cons]
  by_cases h : c = t
  · simp [h]
  · simp [h]

theorem densify_filter_eq (rest : List (List Nat × Int)) (c : List Nat) :
    densify (rest.filter (fun x => x.1 == c)) c
      = ((rest.filter (fun x => x.1 == c)).map Prod.snd).sum := by
  unfold densify
  rw [List.filter_filter]
  simp only [Bool.and_self]

theorem densify_filter_ne (rest : List (List Nat × Int)) (c t : List Nat) :
    densify (rest.filter (fun x => x.1 != c)) t
      = if c = t then 0 else densify rest t := by
  unfold densify
  rw [List.filter_filter]
  by_cases h : c = t
  · subst h
    rw [if_pos rfl]
    have hempty : rest.filter (fun a => (a.1 == c) && (a.1 != c)) = [] := by
      rw [List.filter_eq_nil_iff]
      intro x _
      by_cases hx : x.1 = c
      · simp [hx]
      · simp [hx]
    rw [hempty]
    rfl
  · rw [if_neg h]
    congr 2
    apply List.filter_congr
    intro x _
    by_cases hx : x.1 = t
    · have h1 : (x.1 != c) = true := by
        rw [bne_iff_ne, hx]
        exact fun hc => h hc.symm
      have h2 : (x.1 == t) = true := by simp [hx]
      rw [h1, h2]
      rfl
    · have h1 : (x.1 == t) = false := by simpa using hx
      simp [h1]

theorem densify_dedup (es : List (List Nat × Int)) (t : List Nat) :
    densify (dedup es) t = densify es t := by
  induction es using dedup.induct with
  | case1 => rw [dedup]
  | case2 c v rest ih =>
    rw [dedup, densify_cons, densify_cons, ih, densify_filter_ne]
    by_cases h : c = t
    · subst h
      rw [if_pos rfl, if_pos rfl, if_pos rfl]
      unfold densify
      ring
    · simp [h]

theorem dedup_fst_mem {es : List (List Nat × Int)} {x : List Nat × Int}
    (hx : x ∈ dedup es) : x.1 ∈ es.map Prod.fst := by
  induction es using dedup.induct with
  | case1 => rw [dedup] at hx; cases hx
  | case2 c v rest ih =>
    rw [dedup] at hx
    rcases List.mem_cons.mp hx with rfl | hxt
    · exact List.mem_cons_self _ _
    · have := ih hxt
      obtain ⟨y, hy, hyx⟩ := List.mem_map.mp this
      exact List.mem_cons_of_mem _
        (List.mem_map.mpr ⟨y, List.mem_of_mem_filter hy, hyx⟩)

theorem dedup_fst_nodup (es : List (List Nat × Int)) :
    ((dedup es).map Prod.fst).Nodup := by
  induction es using dedup.induct with
  | case1 => rw [dedup]; exact List.nodup_nil
  | case2 c v rest ih =>
    rw [dedup]
    simp only [List.map_cons, List.nodup_cons]
    refine ⟨?_, ih⟩
    intro hc
    obtain ⟨x, hx, hxc⟩ := List.mem_map.mp hc
    have hmem := dedup_fst_mem hx
    obtain ⟨y, hy, hyx⟩ := List.mem_map.mp hmem
    have hne := List.of_mem_filter hy
    simp only [bne_iff_ne, ne_eq] at hne
    exact hne (by rw [hyx, hxc])

theorem densify_prune (es : List (List Nat × Int)) (t : List Nat) :
    densify (prune es) t = densify es t := by
  induction es with
  | nil => rfl
  | cons x l ih =>
    obtain ⟨c, v⟩ := x
    unfold prune at *
    rw [List.filter_cons]
    by_cases h : v = 0
    · subst h
      simp only [densify_cons]
      rw [if_neg (by simp)]
      simp [ih]
    · rw [if_pos (by simpa using h), densify_cons, densify_cons, ih]

theorem prune_nonzero {es : List (List Nat × Int)} {x : List Nat × Int}
    (hx : x ∈ prune es) : x.2 ≠ 0 := by
  unfold prune at hx
  have h2 := List.of_mem_filter hx
  simpa [bne_iff_ne] using h2

theorem prune_fst_nodup (es : List (List Nat × Int))
    (h : (es.map Prod.fst).Nodup) : ((prune es).map Prod.fst).Nodup := by
  unfold prune
  exact h.sublist (List.Sublist.map Prod.fst (List.filter_sublist es))

theorem sublist_flatMap {α β : Type} {l₁ l₂ : List α} (h : l₁.Sublist l₂)
    (f : α → List β) : (l₁.flatMap f).Sublist (l₂.flatMap f) := by
  induction h with
  | slnil => simp
  | cons a h2 ih =>
    rw [List.flatMap_cons]
    exact ih.trans (List.sublist_append_right _ _)
  | cons₂ a h2 ih =>
    rw [List.flatMap_cons, List.flatMap_cons]
    exact ih.append_left _

theorem sum_nlocal (s : Sample) (k : Nat) :
    ((List.range k).map s.nlocal).sum = s.offsetAt k := by
  induction k with
  | zero => rfl
  | succ k ih =>
    rw [List.range_succ, List.map_append, List.sum_append, ih, offsetAt_succ]
    simp

/-- A small two-element quadrature sample used as concrete evaluation input:
element 0 has two points of weight 1, element 1 one point of weight 2. -/
def ptsW1 : ElemPoints := ⟨2, [1, 1], [[0, 1]], [[0], [1]]⟩

/-- Companion one-point element of `sampleW`. -/
def ptsW2 : ElemPoints := ⟨1, [2], [[0]], [[0]]⟩

/-- A well-formed default-index sample with 2 elements and 3 points. -/
def sampleW : Sample := ⟨[[10, 20]], [ptsW1, ptsW2], .default⟩

/-- A custom-index sample whose single element maps both of its local points
onto the same global point 0. -/
def sampleOverlap : Sample := ⟨[[10]], [ptsW1], .custom [[0, 0]]⟩

/-- A custom-index sample with 2 one-point elements both indexed to global
point 0, so that global point 1 < npoints occurs in no element. -/
def sampleGap : Sample := ⟨[[10, 20]], [ptsW2, ptsW2], .custom [[0], [0]]⟩

/-- C2: for a well-formed Sample with the default index, the per-element
index arrays are consecutive contiguous ranges in element order that exactly
partition [0, npoints) (hence the per-element point counts sum to npoints);
with a custom index, npoints equals the points sequence's declared global
point count. -/
theorem default_index_partition (s : Sample) (hwf : s.WF) :
    (s.idx = IndexKind.default →
      (∀ e, s.getindex e = List.range' (s.offsetAt e) (s.nlocal e)) ∧
      s.allIndices = List.range s.npoints ∧
      ((List.range s.nelems).map s.nlocal).sum = s.npoints) ∧
    (∀ index, s.idx = IndexKind.custom index →
      s.npoints = pointsSeqNpoints s.points) := by
  constructor
  · intro h
    refine ⟨default_getindex s h, ?_, ?_⟩
    · unfold Sample.allIndices
      rw [flatMap_getindex_default s h, wf_nelems s hwf, offsetAt_length,
        List.range_eq_range']
    · rw [sum_nlocal, wf_nelems s hwf, offsetAt_length]
  · intro _ _
    rfl

/-- Witness for `default_index_partition` at the concrete sample `sampleW`. -/
theorem default_index_partition_witness :
    sampleW.allIndices = List.range sampleW.npoints ∧
    ((List.range sampleW.nelems).map sampleW.nlocal).sum = sampleW.npoints :=
  ⟨((default_index_partition sampleW (by decide)).1 rfl).2.1,
   ((default_index_partition sampleW (by decide)).1 rfl).2.2⟩

/-- C3 (amended: for default-index Samples; overlapping custom indices break
the law, see the counterexample): integrating the reinjected point data
`asfunction(eval(X))` over the same Sample reproduces `integrate(X)` exactly
in exact arithmetic. -/
theorem asfunction_roundtrip_default (s : Sample) (X : Nat → Nat → Int)
    (h : s.idx = IndexKind.default) :
    s.integrate (s.asfun (s.evalData X)) = s.integrate X := by
  rw [integrate_eq_pairs, integrate_eq_pairs]
  congr 1
  apply List.map_congr_left
  intro q hq
  obtain ⟨he, hj⟩ := of_mem_pairs s hq
  rw [asfun_at s _ (default_idx_lt s h hj), evalData_at_default s X h he hj]

/-- Witness for `asfunction_roundtrip_default` at `sampleW` with the
integrand X(e, j) = e + j. -/
theorem asfunction_roundtrip_default_witness :
    sampleW.integrate (sampleW.asfun (sampleW.evalData (fun e j => (e : Int) + j)))
      = sampleW.integrate (fun e j => (e : Int) + j) :=
  asfunction_roundtrip_default sampleW (fun e j => (e : Int) + j) rfl

/-- C3 counterexample: on the custom-index sample `sampleOverlap`, whose two
local points share global point 0, the round trip doubles the shared point's
contribution: the round-tripped integral is 4 while integrate(X) is 2, an
exact-arithmetic discrepancy far beyond any quadrature tolerance. -/
theorem asfunction_roundtrip_counterexample :
    sampleOverlap.integrate
        (sampleOverlap.asfun (sampleOverlap.evalData (fun _ _ => 1))) = 4 ∧
    sampleOverlap.integrate (fun _ _ => (1 : Int)) = 2 ∧
    sampleOverlap.integrate
        (sampleOverlap.asfun (sampleOverlap.evalData (fun _ _ => 1)))
      ≠ sampleOverlap.integrate (fun _ _ => (1 : Int)) := by
  refine ⟨by decide, by decide, by decide⟩

/-- C4 (amended only in the point-soundness clause: a masked point is
guaranteed present when it occurs in some element's index array — automatic
for default-index Samples, while a custom index may leave a global index
unused, see the counterexample): `subset` retains exactly those elements
whose global index arrays contain at least one True-masked point — an
element is selected if and only if it is in range and some point of its
index array is masked, and the subset's element data is built from exactly
that selection — the retained points keep the original per-point order, the
subset has at most `nelems` elements, and every masked point occurring in
some element's index array is present in the subset's point set. -/
theorem subset_sound_ordered (s : Sample) (mask : List Bool) (p : Nat)
    (hp : mask.getD p false = true)
    (hmem : ∃ e ∈ List.range s.nelems, p ∈ s.getindex e) :
    (∀ e, e ∈ s.selection mask ↔
      e < s.nelems ∧ ∃ q ∈ s.getindex e, mask.getD q false = true) ∧
    ((s.subset mask).points
      = (s.selection mask).map (fun e => s.points.getD e default)) ∧
    (∃ e ∈ s.selection mask, p ∈ s.getindex e) ∧
    ((s.selection mask).flatMap s.getindex).Sublist s.allIndices ∧
    (s.subset mask).nelems ≤ s.nelems := by
  refine ⟨?_, rfl, ?_, ?_, ?_⟩
  · intro e
    unfold Sample.selection
    rw [List.mem_filter, List.mem_range, List.any_eq_true]
  · obtain ⟨e, he, hpe⟩ := hmem
    refine ⟨e, ?_, hpe⟩
    unfold Sample.selection
    rw [List.mem_filter]
    exact ⟨he, List.any_eq_true.mpr ⟨p, hpe, hp⟩⟩
  · unfold Sample.allIndices Sample.selection
    exact sublist_flatMap (List.filter_sublist _) s.getindex
  · unfold Sample.subset Sample.nelems
    cases hs : s.transforms with
    | nil => simp
    | cons t ts =>
      simp only [List.map_cons, List.getD_cons_zero, List.length_map]
      calc (s.selection mask).length
          ≤ (List.range s.nelems).length := List.length_filter_le _ _
        _ = s.nelems := List.length_range s.nelems
        _ = (s.transforms.getD 0 []).length := rfl
        _ = t.length := by rw [hs, List.getD_cons_zero]

/-- Witness for `subset_sound_ordered` at `sampleW` with the mask keeping
point 0. -/
theorem subset_sound_ordered_witness :
    (∀ e, e ∈ sampleW.selection [true, false, false] ↔
      e < sampleW.nelems ∧ ∃ q ∈ sampleW.getindex e,
        List.getD [true, false, false] q false = true) ∧
    ((sampleW.subset [true, false, false]).points
      = (sampleW.selection [true, false, false]).map
          (fun e => sampleW.points.getD e default)) ∧
    (∃ e ∈ sampleW.selection [true, false, false],
        0 ∈ sampleW.getindex e) ∧
    ((sampleW.selection [true, false, false]).flatMap
        sampleW.getindex).Sublist sampleW.allIndices ∧
    (sampleW.subset [true, false, false]).nelems ≤ sampleW.nelems :=
  subset_sound_ordered sampleW [true, false, false] 0 (by decide)
    ⟨0, by decide, by decide⟩

/-- C4 counterexample: on `sampleGap` the mask keeps global point 1
(1 < npoints = 2), but point 1 occurs in no element's index array, so no
element is retained and the subset's point set is empty — a point marked
True is dropped, refuting the claim as stated for arbitrary Samples. -/
theorem subset_sound_counterexample :
    List.getD [false, true] 1 false = true ∧
    1 < sampleGap.npoints ∧
    (¬ ∃ e ∈ sampleGap.selection [false, true], 1 ∈ sampleGap.getindex e) ∧
    (sampleGap.selection [false, true]).flatMap sampleGap.getindex = [] ∧
    (sampleGap.subset [false, true]).nelems = 0 := by
  refine ⟨by decide, by decide, by decide, by decide, by decide⟩

/-- C10: `subset` always rebuilds through `Sample.new` without an index, so
the result is a default-index Sample: any custom index of the original is
discarded, the subset's `getindex` is the contiguous renumbering in element
order, and (when the original has at least one transform sequence) the
subset's points are numbered exactly [0, subset.npoints). -/
theorem subset_is_default_index (s : Sample) (mask : List Bool)
    (h : s.transforms ≠ []) :
    (s.subset mask).idx = IndexKind.default ∧
    (∀ e, (s.subset mask).getindex e
      = List.range' ((s.subset mask).offsetAt e) ((s.subset mask).nlocal e)) ∧
    (s.subset mask).allIndices = List.range (s.subset mask).npoints := by
  have hwf : (s.subset mask).WF := by
    constructor
    · unfold Sample.subset
      simpa [List.map_eq_nil_iff] using h
    · intro t ht
      unfold Sample.subset at ht ⊢
      simp only [List.mem_map] at ht
      obtain ⟨t0, _, rfl⟩ := ht
      simp
  refine ⟨rfl, default_getindex _ rfl, ?_⟩
  unfold Sample.allIndices
  rw [flatMap_getindex_default _ rfl, wf_nelems _ hwf, offsetAt_length,
    List.range_eq_range']

/-- Witness for `subset_is_default_index`: applied to the custom-index
sample `sampleOverlap`, whose index is discarded by `subset`. -/
theorem subset_is_default_index_witness :
    (sampleOverlap.subset [true, false]).idx = IndexKind.default ∧
    (sampleOverlap.subset [true, false]).allIndices
      = List.range (sampleOverlap.subset [true, false]).npoints :=
  ⟨(subset_is_default_index sampleOverlap [true, false] (by decide)).1,
   (subset_is_default_index sampleOverlap [true, false] (by decide)).2.2⟩

/-- C5: construction fails immediately with a message identifying the
violated invariant when a transform-chain sequence's element count disagrees
with the points sequence's length, when a custom index tuple's length
differs from the number of elements, and when a per-element index array's
length differs from that element's local point count. -/
theorem construction_length_errors
    (tr : List (List Nat)) (pts : List ElemPoints) (ix : List (List Nat)) :
    (tr ≠ [] → (∃ t ∈ tr, t.length ≠ pts.length) →
      Sample.new tr pts none
        = .error "assert all(len(t) == len(points) for t in transforms)") ∧
    (ix.length ≠ pts.length →
      Sample.new tr pts (some ix)
        = .error "expected an index with len(points) items") ∧
    (ix.length = pts.length →
      (∃ q ∈ List.zip ix pts, q.1.length ≠ q.2.npoints) →
      Sample.new tr pts (some ix)
        = .error "lengths of indices does not match number of points per element") := by
  refine ⟨?_, ?_, ?_⟩
  · intro hne hbad
    unfold Sample.new sampleInit
    rw [if_neg (by simpa [Nat.lt_one_iff] using hne), if_pos]
    intro hall
    obtain ⟨t, ht, hlen⟩ := hbad
    have := List.all_eq_true.mp hall t ht
    exact hlen (by simpa using this)
  · intro hlen
    unfold Sample.new
    dsimp only
    rw [if_pos hlen]
  · intro hlen hbad
    unfold Sample.new
    dsimp only
    rw [if_neg (by simpa using hlen), if_pos]
    intro hall
    obtain ⟨q, hq, hne⟩ := hbad
    have := List.all_eq_true.mp hall q hq
    exact hne (by simpa using this)

/-- Witness for `construction_length_errors`: the three failure modes at
concrete inputs. -/
theorem construction_length_errors_witness :
    (Sample.new [[1]] [ptsW2, ptsW2] none
      = .error "assert all(len(t) == len(points) for t in transforms)") ∧
    (Sample.new [[1, 2]] [ptsW2] (some [])
      = .error "expected an index with len(points) items") ∧
    (Sample.new [[1]] [ptsW2] (some [[0, 0]])
      = .error "lengths of indices does not match number of points per element") :=
  ⟨(construction_length_errors [[1]] [ptsW2, ptsW2] []).1 (by decide)
      ⟨[1], by decide, by decide⟩,
   (construction_length_errors [[1, 2]] [ptsW2] []).2.1 (by decide),
   (construction_length_errors [[1]] [ptsW2] [[0, 0]]).2.2 (by decide)
      ⟨([0, 0], ptsW2), by decide, by decide⟩⟩

/-- C6: lowering an `_Integral` or an `_AtSample` with `transform_chains` or
`coordinates` already bound from an outer context fails immediately with the
nesting error, for every possible lowering behaviour of the wrapped
expression (so the wrapped expression is never lowered first). -/
theorem lower_nested_error
    (f g : List (List Nat) → List (List Nat) → Except String (Nat → Nat → Int))
    (s : Sample) (transform_chains coordinates : List (List Nat))
    (h : transform_chains ≠ [] ∨ coordinates ≠ []) :
    integralLower f s transform_chains coordinates = .error nestedErr ∧
    atSampleLower g s transform_chains coordinates = .error nestedErr := by
  unfold integralLower atSampleLower
  rw [if_pos h, if_pos h]
  exact ⟨rfl, rfl⟩

/-- Witness for `lower_nested_error` with a bound transform chain. -/
theorem lower_nested_error_witness :
    integralLower (fun _ _ => .ok fun _ _ => 0) sampleW [[0]] [] = .error nestedErr ∧
    atSampleLower (fun _ _ => .ok fun _ _ => 0) sampleW [[0]] [] = .error nestedErr :=
  lower_nested_error (fun _ _ => .ok fun _ _ => 0) (fun _ _ => .ok fun _ _ => 0)
    sampleW [[0]] [] (Or.inl (by decide))

/-- C8: the deferred `_Integral` node keeps the integrand's shape and
promotes bool/int dtypes to float (float and complex pass through), while
the deferred `_AtSample` node prepends the sample's total point count to the
function's shape and passes every dtype through unchanged. -/
theorem deferred_shape_dtype (a : FArray) (s : Sample) (sh : List Nat) :
    (integralNode a).shape = a.shape ∧
    (integralNode ⟨sh, Dtype.bool⟩).dtype = Dtype.float ∧
    (integralNode ⟨sh, Dtype.int⟩).dtype = Dtype.float ∧
    (integralNode ⟨sh, Dtype.float⟩).dtype = Dtype.float ∧
    (integralNode ⟨sh, Dtype.complex⟩).dtype = Dtype.complex ∧
    (atSampleNode a s).shape = s.npoints :: a.shape ∧
    (atSampleNode ⟨sh, Dtype.bool⟩ s).dtype = Dtype.bool ∧
    (atSampleNode ⟨sh, Dtype.int⟩ s).dtype = Dtype.int ∧
    (atSampleNode a s).dtype = a.dtype := by
  refine ⟨rfl, ?_, ?_, ?_, ?_, rfl, rfl, rfl, rfl⟩ <;> simp [integralNode]

/-- C7: `_convert` branches on the tensor rank: rank 0 densifies to a scalar
and rank 1 to a dense vector of the declared length whose entries accumulate
(sum, not overwrite) all sparse entries at each coordinate; rank 2 builds a
matrix whose dense entries likewise sum duplicate (row, col) entries; rank
> 2 returns the deduplicated (colliding index tuples summed) and pruned
(zero values dropped) sparse tensor, preserving the dense semantics.  The
final conjunct checks the spec's concrete example: duplicates at index 3
with values 2 and 5 densify to 7. -/
theorem convert_rank_branches (es : List (List Nat × Int)) (n r c i j : Nat)
    (sh : List Nat) :
    (convert ⟨[], es⟩ = ConvResult.scalar (densify es [])) ∧
    (convert ⟨[n], es⟩ = ConvResult.vector (toVector n es)) ∧
    ((toVector n es).length = n) ∧
    (i < n → (toVector n es).getD i 0
      = ((es.filter (fun x => x.1 == [i])).map Prod.snd).sum) ∧
    (convert ⟨[r, c], es⟩ = ConvResult.matrix (toMatrix r c es)) ∧
    (i < r → j < c → ((toMatrix r c es).getD i []).getD j 0
      = ((es.filter (fun x => x.1 == [i, j])).map Prod.snd).sum) ∧
    (sh.length > 2 → convert ⟨sh, es⟩ = ConvResult.sparseT ⟨sh, prune (dedup es)⟩) ∧
    (∀ t, densify (prune (dedup es)) t = densify es t) ∧
    (((prune (dedup es)).map Prod.fst).Nodup) ∧
    (∀ x ∈ prune (dedup es), x.2 ≠ 0) ∧
    (convert ⟨[4], [([3], 2), ([3], 5)]⟩ = ConvResult.vector [0, 0, 0, 7]) := by
  refine ⟨rfl, rfl, by simp [toVector], ?_, rfl, ?_, ?_, ?_, ?_, ?_, by decide⟩
  · intro hi
    unfold toVector
    rw [List.getD_eq_getElem _ _ (by simpa using hi), List.getElem_map,
      List.getElem_range]
    rfl
  · intro hi hj
    have houter : (toMatrix r c es).getD i []
        = (List.range c).map (fun j => densify es [i, j]) := by
      unfold toMatrix
      rw [List.getD_eq_getElem _ _ (by simpa using hi), List.getElem_map,
        List.getElem_range]
    rw [houter, List.getD_eq_getElem _ _ (by simpa using hj), List.getElem_map,
      List.getElem_range]
    rfl
  · intro hsh
    unfold convert
    dsimp only
    rw [if_neg (by omega), if_neg (by omega)]
  · intro t
    rw [densify_prune, densify_dedup]
  · exact prune_fst_nodup _ (dedup_fst_nodup es)
  · intro x hx
    exact prune_nonzero hx

/-- Witness for `convert_rank_branches` on a concrete sparse input with a
duplicate coordinate and an explicit zero entry. -/
theorem convert_rank_branches_witness :
    (toVector 2 [([0], 3), ([0], 4), ([1], 0)]).getD 0 0
      = (([([0], 3), ([0], 4), ([1], 0)].filter
          (fun x => x.1 == [0])).map Prod.snd).sum ∧
    convert ⟨[1, 1, 1], [([0], 3), ([0], 4), ([1], 0)]⟩
      = ConvResult.sparseT ⟨[1, 1, 1], prune (dedup [([0], 3), ([0], 4), ([1], 0)])⟩ ∧
    ((toMatrix 1 1 [([0], 3), ([0], 4), ([1], 0)]).getD 0 []).getD 0 0
      = (([([0], 3), ([0], 4), ([1], 0)].filter
          (fun x => x.1 == [0, 0])).map Prod.snd).sum :=
  ⟨(convert_rank_branches [([0], 3), ([0], 4), ([1], 0)] 2 1 1 0 0 [1, 1, 1]).2.2.2.1
      (by decide),
   (convert_rank_branches [([0], 3), ([0], 4), ([1], 0)] 2 1 1 0 0
      [1, 1, 1]).2.2.2.2.2.2.1 (by decide),
   (convert_rank_branches [([0], 3), ([0], 4), ([1], 0)] 2 1 1 0 0
      [1, 1, 1]).2.2.2.2.2.1 (by decide) (by decide)⟩

/-- C9: for a default-index Sample whose local connectivity tables only
reference valid local point indices, the optimised overrides returning the
points sequence's global `tri`/`hull` agree with the generic remapping of
each element's local simplex table through that element's index array. -/
theorem tri_hull_default_override (s : Sample) (h : s.idx = IndexKind.default)
    (htri : ∀ e ∈ List.range s.points.length,
      ∀ row ∈ (s.points.getD e default).tri, ∀ v ∈ row, v < s.nlocal e)
    (hhull : ∀ e ∈ List.range s.points.length,
      ∀ row ∈ (s.points.getD e default).hull, ∀ v ∈ row, v < s.nlocal e) :
    s.defaultTri = s.tri ∧ s.defaultHull = s.hull := by
  constructor
  · unfold Sample.defaultTri pointsSeqTri Sample.tri
    apply flatMap_congr
    intro e he
    apply List.map_congr_left
    intro row hrow
    apply List.map_congr_left
    intro v hv
    have hb := htri e he row hrow v hv
    rw [default_getindex s h,
      List.getD_eq_getElem _ _ (by simpa [List.length_range'] using hb),
      List.getElem_range']
    simp [Sample.offsetAt]
  · unfold Sample.defaultHull pointsSeqHull Sample.hull
    apply flatMap_congr
    intro e he
    apply List.map_congr_left
    intro row hrow
    apply List.map_congr_left
    intro v hv
    have hb := hhull e he row hrow v hv
    rw [default_getindex s h,
      List.getD_eq_getElem _ _ (by simpa [List.length_range'] using hb),
      List.getElem_range']
    simp [Sample.offsetAt]

/-- Witness for `tri_hull_default_override` at `sampleW`. -/
theorem tri_hull_default_override_witness :
    sampleW.defaultTri = sampleW.tri ∧ sampleW.defaultHull = sampleW.hull :=
  tri_hull_default_override sampleW rfl (by decide) (by decide)

/-- C1: the joint pipeline returns exactly one result per requested integral,
in input order, and each raw sparse result — and each converted result — is
identical to the one obtained from a separate single-integral call with the
same arguments; conversion is applied per position, preserving order. -/
theorem joint_eval_order_preserving (l : List Deferred) (args : Args) (i : Nat)
    (hi : i < l.length) :
    (eval_integrals_sparse l args).length = l.length ∧
    (eval_integrals l args).length = l.length ∧
    (eval_integrals_sparse l args).getD i default
      = (eval_integrals_sparse [l.getD i default] args).getD 0 default ∧
    (eval_integrals l args).getD i default
      = (eval_integrals [l.getD i default] args).getD 0 default ∧
    (eval_integrals l args).getD i default
      = convert ((eval_integrals_sparse l args).getD i default) := by
  have hms : eval_integrals_sparse l args = l.map (fun d => d.assparse args) := by
    unfold eval_integrals_sparse evTuple
    rw [List.map_map]
    rfl
  have h1 : (eval_integrals_sparse l args).getD i default
      = (l.getD i default).assparse args := by
    rw [hms, List.getD_eq_getElem _ _ (by simpa using hi), List.getElem_map,
      List.getD_eq_getElem _ _ hi]
  have h2 : (eval_integrals l args).getD i default
      = convert ((l.getD i default).assparse args) := by
    unfold eval_integrals
    rw [hms, List.map_map, List.getD_eq_getElem _ _ (by simpa using hi),
      List.getElem_map, List.getD_eq_getElem _ _ hi]
    rfl
  refine ⟨?_, ?_, ?_, ?_, ?_⟩
  · rw [hms, List.length_map]
  · unfold eval_integrals
    rw [hms, List.length_map, List.length_map]
  · rw [h1]
    rfl
  · rw [h2]
    rfl
  · rw [h1, h2]

/-- Witness for `joint_eval_order_preserving`: a two-integral batch over
`sampleW`, inspected at position 1. -/
theorem joint_eval_order_preserving_witness :
    (eval_integrals_sparse [Deferred.integral (fun _ _ _ => 1) sampleW,
        Deferred.atSample (fun _ _ _ => 2) sampleW] (fun _ => 0)).length = 2 ∧
    (eval_integrals_sparse [Deferred.integral (fun _ _ _ => 1) sampleW,
        Deferred.atSample (fun _ _ _ => 2) sampleW] (fun _ => 0)).getD 1 default
      = (eval_integrals_sparse
          [[Deferred.integral (fun _ _ _ => 1) sampleW,
            Deferred.atSample (fun _ _ _ => 2) sampleW].getD 1 default]
          (fun _ => 0)).getD 0 default :=
  ⟨(joint_eval_order_preserving [Deferred.integral (fun _ _ _ => 1) sampleW,
      Deferred.atSample (fun _ _ _ => 2) sampleW] (fun _ => 0) 1 (by decide)).1,
   (joint_eval_order_preserving [Deferred.integral (fun _ _ _ => 1) sampleW,
      Deferred.atSample (fun _ _ _ => 2) sampleW] (fun _ => 0) 1
      (by decide)).2.2.1⟩




